import Mathlib

/-
Verification of the dvors typing-tutor core against its specification.
The Rust code is shallowly embedded: strings are lists of characters,
std::time::Duration values (and the f64 arithmetic derived from them) are
modelled as exact rationals, and fallible or panicking code returns an
explicit result constructor.
-/

namespace Dvors

/-- Durations are modelled as exact rational numbers of seconds.  Rust's
std::time::Duration holds nanoseconds, which embed exactly into ℚ, and the
f64 arithmetic of TestResults is modelled as exact rational arithmetic. -/
abbrev Duration := ℚ

/-- Embeds enum Metric of src/metrics.rs: Delimiter, Match and Typo events,
each carrying the elapsed duration since the previous keystroke. -/
inductive Metric where
| Delimiter (value : Char) (duration : Duration)
| Match (value : Char) (duration : Duration)
| Typo (value : Char) (expected : Char) (duration : Duration)
deriving DecidableEq

/-- Embeds struct Word of src/word.rs: an immutable target string, the
mutable typed buffer, and the append-only metric log.  Rust strings are
modelled as lists of characters (the inputs in scope are ASCII, where the
byte length used by the code to index the target equals the char count). -/
structure Word where
value : List Char
typed : List Char
metrics : List Metric
deriving DecidableEq

/-- Embeds struct FinishedWord of src/word.rs. -/
structure FinishedWord where
value : List Char
metrics : List Metric
deriving DecidableEq

/-- Embeds Word::char_at: the target character at a given index. -/
def Word.char_at (w : Word) (idx : Nat) : Option Char :=
  w.value[idx]?

/-- Embeds Word::len: character count of the target. -/
def Word.len (w : Word) : Nat :=
  w.value.length

/-- Embeds Word::typed_len: character count of the typed buffer. -/
def Word.typed_len (w : Word) : Nat :=
  w.typed.length

/-- Embeds Word::overflow: typed length minus target length, floored at 0
(Rust saturating_sub is Nat subtraction here). -/
def Word.overflow (w : Word) : Nat :=
  w.typed_len - w.len

/-- Embeds Word::add_char of src/word.rs: look up the expected character at
the current typed position; if present push a Match or Typo metric
(comparing the typed character with the expected one), otherwise push no
metric; in every case append the typed character to the buffer. -/
def Word.add_char (w : Word) (c : Char) (d : Duration) : Word :=
  let metrics :=
    match w.char_at w.typed.length with
    | some expected =>
        if c ≠ expected then w.metrics ++ [Metric.Typo c expected d]
        else w.metrics ++ [Metric.Match c d]
    | none => w.metrics
  { value := w.value, typed := w.typed ++ [c], metrics := metrics }

/-- Embeds Word::remove_char: String::pop drops the last character of the
typed buffer and touches nothing else. -/
def Word.remove_char (w : Word) : Word :=
  { w with typed := w.typed.dropLast }

/-- Embeds Word::is_complete: exact equality of target and typed buffer. -/
def Word.is_complete (w : Word) : Bool :=
  w.value == w.typed

/-- Embeds Word::finalise of src/word.rs: unconditionally push a Delimiter
metric and convert into a FinishedWord via the From impl, which keeps the
target and the metric log and discards the typed buffer. -/
def Word.finalise (w : Word) (c : Char) (d : Duration) : FinishedWord :=
  { value := w.value, metrics := w.metrics ++ [Metric.Delimiter c d] }

/-- Embeds the From impl for Word of src/word.rs: a fresh Word on a target
string, with empty typed buffer and empty metric log. -/
def Word.from_str (s : List Char) : Word :=
  { value := s, typed := [], metrics := [] }

/-- Embeds FinishedWord::len. -/
def FinishedWord.len (fw : FinishedWord) : Nat :=
  fw.value.length

/-- Embeds FinishedWord::len_inc_delim: word length plus one for the
trailing delimiter. -/
def FinishedWord.len_inc_delim (fw : FinishedWord) : Nat :=
  fw.len + 1

/-- Replays a sequence of keystrokes (character and duration pairs) through
Word::add_char in order. -/
def replay : Word → List (Char × Duration) → Word
| w, [] => w
| w, (c, d) :: rest => replay (w.add_char c d) rest

theorem add_char_typed (w : Word) (c : Char) (d : Duration) :
    (w.add_char c d).typed = w.typed ++ [c] :=
  rfl

theorem add_char_value (w : Word) (c : Char) (d : Duration) :
    (w.add_char c d).value = w.value :=
  rfl

theorem replay_typed (w : Word) (inputs : List (Char × Duration)) :
    (replay w inputs).typed = w.typed ++ inputs.map Prod.fst := by
  induction inputs generalizing w with
  | nil => simp [replay]
  | cons p rest ih =>
      obtain ⟨c, d⟩ := p
      simp [replay, ih, add_char_typed]

theorem replay_value (w : Word) (inputs : List (Char × Duration)) :
    (replay w inputs).value = w.value := by
  induction inputs generalizing w with
  | nil => rfl
  | cons p rest ih =>
      obtain ⟨c, d⟩ := p
      simp [replay, ih, add_char_value]

/-- Claim C1: Word::add_char at typed position i (the typed length before
the call) appends exactly one metric when i is inside the target — a Match
carrying the typed character and duration when it equals the target
character at i, otherwise a Typo carrying typed, expected and duration —
appends no metric when i is at or past the end of the target, and in every
case appends the character to the typed buffer. -/
theorem add_char_spec (w : Word) (c : Char) (d : Duration) :
    (∀ h : w.typed.length < w.value.length,
        (w.add_char c d).metrics =
          w.metrics ++
            [if c = w.value[w.typed.length] then Metric.Match c d
             else Metric.Typo c (w.value[w.typed.length]) d])
    ∧ (w.value.length ≤ w.typed.length → (w.add_char c d).metrics = w.metrics)
    ∧ (w.add_char c d).typed = w.typed ++ [c] := by
  refine ⟨fun h => ?_, fun h => ?_, rfl⟩
  · simp only [Word.add_char, Word.char_at, List.getElem?_eq_getElem h]
    by_cases hc : c = w.value[w.typed.length] <;> simp [hc]
  · simp only [Word.add_char, Word.char_at, List.getElem?_eq_none h]

/-- Witness for C1 at concrete inputs: a matching keystroke on target "ab",
an overflowing keystroke on target "a" with buffer "a". -/
theorem add_char_spec_witness :
    ((Word.from_str ['a', 'b']).add_char 'a' 1).metrics =
      [] ++ [if 'a' = 'a' then Metric.Match 'a' 1 else Metric.Typo 'a' 'a' 1]
    ∧ ((Word.mk ['a'] ['a'] []).add_char 'x' 1).metrics = [] :=
  ⟨(add_char_spec (Word.from_str ['a', 'b']) 'a' 1).1 (by decide),
   (add_char_spec (Word.mk ['a'] ['a'] []) 'x' 1).2.1 (by decide)⟩

/-- Claim C2: replaying the full target through add_char makes is_complete
true, replaying any proper prefix leaves it false, and is_complete holds
exactly when the typed buffer equals the target string. -/
theorem is_complete_replay (T : List Char) (inputs : List (Char × Duration)) :
    (inputs.map Prod.fst = T →
        (replay (Word.from_str T) inputs).is_complete = true)
    ∧ (∀ rest, rest ≠ [] → inputs.map Prod.fst ++ rest = T →
        (replay (Word.from_str T) inputs).is_complete = false)
    ∧ (∀ w : Word, w.is_complete = true ↔ w.value = w.typed) := by
  refine ⟨fun hfull => ?_, fun rest hne hpre => ?_, fun w => ?_⟩
  · simp [Word.is_complete, replay_typed, replay_value, Word.from_str, hfull]
  · have htyped : (replay (Word.from_str T) inputs).typed = inputs.map Prod.fst := by
      simp [replay_typed, Word.from_str]
    have hvalue : (replay (Word.from_str T) inputs).value = T := by
      simp [replay_value, Word.from_str]
    have hne2 : T ≠ inputs.map Prod.fst := by
      intro he
      have hcat : inputs.map Prod.fst ++ rest = inputs.map Prod.fst ++ [] := by
        rw [List.append_nil, hpre, he]
      exact hne (List.append_cancel_left hcat)
    simp [Word.is_complete, htyped, hvalue, hne2]
  · simp [Word.is_complete]

/-- Witness for C2 at target "ab": the full replay completes, the proper
prefix "a" does not, and the iff holds at a concrete word. -/
theorem is_complete_replay_witness :
    (replay (Word.from_str ['a', 'b']) [('a', 1), ('b', 1)]).is_complete = true
    ∧ (replay (Word.from_str ['a', 'b']) [('a', 1)]).is_complete = false
    ∧ ((Word.mk ['a'] ['a'] []).is_complete = true ↔
        (Word.mk ['a'] ['a'] []).value = (Word.mk ['a'] ['a'] []).typed) :=
  ⟨(is_complete_replay ['a', 'b'] [('a', 1), ('b', 1)]).1 rfl,
   (is_complete_replay ['a', 'b'] [('a', 1)]).2.1 ['b'] (by decide) rfl,
   (is_complete_replay ['a'] []).2.2 (Word.mk ['a'] ['a'] [])⟩

/-- Claim C3: on a complete Word, finalise appends exactly one Delimiter
metric carrying the supplied character and duration, and yields a
FinishedWord with the same target and the prior log followed by that
single Delimiter. -/
theorem finalise_spec (w : Word) (h : w.is_complete = true) (c : Char) (d : Duration) :
    (w.finalise c d).value = w.value
    ∧ (w.finalise c d).metrics = w.metrics ++ [Metric.Delimiter c d] :=
  ⟨rfl, rfl⟩

/-- Witness for C3 at a concrete complete word. -/
theorem finalise_spec_witness :
    (Word.mk ['a'] ['a'] []).is_complete = true
    ∧ ((Word.mk ['a'] ['a'] []).finalise ' ' 1).metrics =
        [] ++ [Metric.Delimiter ' ' 1] :=
  ⟨by decide, (finalise_spec (Word.mk ['a'] ['a'] []) (by decide) ' ' 1).2⟩

/-- Claim C4: remove_char drops exactly the last typed character (a no-op
on an empty buffer) and leaves the metric log and the target unchanged. -/
theorem remove_char_spec (w : Word) :
    (w.typed = [] → w.remove_char = w)
    ∧ (w.typed ≠ [] → (w.remove_char).typed.length + 1 = w.typed.length)
    ∧ (w.remove_char).typed = w.typed.dropLast
    ∧ (w.remove_char).metrics = w.metrics
    ∧ (w.remove_char).value = w.value := by
  refine ⟨fun h => ?_, fun h => ?_, rfl, rfl, rfl⟩
  · cases w with
    | mk v t m => simp_all [Word.remove_char]
  · have hpos : 0 < w.typed.length := List.length_pos.mpr h
    simp [Word.remove_char, List.length_dropLast, Nat.sub_add_cancel hpos]

/-- Witness for C4: the no-op on an empty buffer and the one-shorter length
on a singleton buffer, at concrete words. -/
theorem remove_char_spec_witness :
    (Word.mk ['a'] [] []).remove_char = Word.mk ['a'] [] []
    ∧ (Word.mk ['a'] ['x'] []).remove_char.typed.length + 1 =
        (Word.mk ['a'] ['x'] []).typed.length :=
  ⟨(remove_char_spec (Word.mk ['a'] [] [])).1 rfl,
   (remove_char_spec (Word.mk ['a'] ['x'] [])).2.1 (by decide)⟩

/-- Claim C9: finalise checks nothing — on any Word, complete or not, it
unconditionally appends the Delimiter metric and returns a FinishedWord
keeping the target and all prior metrics; its return type is FinishedWord
itself, not a fallible result, so no precondition violation is ever
reported. -/
theorem finalise_unconditional (w : Word) (c : Char) (d : Duration) :
    (w.finalise c d).value = w.value
    ∧ (w.finalise c d).metrics = w.metrics ++ [Metric.Delimiter c d] :=
  ⟨rfl, rfl⟩

/-- The duration carried by a metric, as matched by the duration fold of
TestResults::duration_secs in src/typingtest.rs. -/
def Metric.dur : Metric → Duration
| .Delimiter _ d => d
| .Match _ d => d
| .Typo _ _ d => d

/-- Embeds struct TestResults of src/typingtest.rs: the ordered sequence of
finished words of one lesson. -/
abbrev TestResults := List FinishedWord

/-- Embeds TestResults::word_cnt. -/
def TestResults.word_cnt (t : TestResults) : Nat :=
  t.length

/-- Embeds TestResults::char_cnt: fold of len_inc_delim over the words. -/
def TestResults.char_cnt (t : TestResults) : Nat :=
  t.foldl (fun acc w => acc + w.len_inc_delim) 0

/-- Embeds TestResults::duration_secs: the nested fold summing every
metric's duration over every word, starting from Duration::default. -/
def TestResults.duration_secs (t : TestResults) : ℚ :=
  t.foldl (fun acc w => acc + w.metrics.foldl (fun a m => a + m.dur) 0) 0

/-- Embeds TestResults::wpm_avg: char_cnt normalised by 5 characters per
word, divided by the duration in minutes; 0.0 when no word is finished. -/
def TestResults.wpm_avg (t : TestResults) : ℚ :=
  let word_cnt : ℚ := (TestResults.char_cnt t : ℚ) / 5
  if t.isEmpty then 0 else word_cnt / (TestResults.duration_secs t / 60)

/-- Embeds TestResults::typo_cnt: the nested fold counting Typo metrics. -/
def TestResults.typo_cnt (t : TestResults) : Nat :=
  t.foldl
    (fun acc w =>
      acc + w.metrics.foldl
        (fun a m => match m with | .Typo _ _ _ => a + 1 | _ => a) 0)
    0

/-- The finished word of the spec's worked example: target "test", four
Match metrics and one Delimiter, each lasting one second. -/
def test_example_word : FinishedWord :=
  { value := ['t', 'e', 's', 't'],
    metrics := [Metric.Match 't' 1, Metric.Match 'e' 1, Metric.Match 's' 1,
                Metric.Match 't' 1, Metric.Delimiter ' ' 1] }

/-- Claim C5: with at least one finished word, wpm_avg equals
(char_cnt/5)/(duration_secs/60); on an empty TestResults every statistic is
zero; and on the single word "test" whose five metrics sum to five seconds,
char_cnt is 5 and wpm_avg is 12. -/
theorem test_results_stats :
    (∀ t : TestResults, t ≠ [] →
        TestResults.wpm_avg t =
          ((TestResults.char_cnt t : ℚ) / 5) / (TestResults.duration_secs t / 60))
    ∧ TestResults.word_cnt [] = 0
    ∧ TestResults.char_cnt [] = 0
    ∧ TestResults.typo_cnt [] = 0
    ∧ TestResults.wpm_avg [] = 0
    ∧ TestResults.char_cnt [test_example_word] = 5
    ∧ TestResults.wpm_avg [test_example_word] = 12 := by
  refine ⟨fun t ht => ?_, rfl, rfl, rfl, rfl, rfl, ?_⟩
  · rw [TestResults.wpm_avg, if_neg]
    simp [List.isEmpty_iff, ht]
  · show (((5 : Nat) : ℚ) / 5) / ((0 + (0 + 1 + 1 + 1 + 1 + 1) : ℚ) / 60) = 12
    norm_num

/-- Witness for C5: the wpm formula instantiated at the nonempty
TestResults holding the worked-example word. -/
theorem test_results_stats_witness :
    TestResults.wpm_avg [test_example_word] =
      ((TestResults.char_cnt [test_example_word] : ℚ) / 5) /
        (TestResults.duration_secs [test_example_word] / 60) :=
  test_results_stats.1 [test_example_word] (List.cons_ne_nil _ _)

/-- The acceptance test of get_test_words in src/main.rs: the word's
character set is a subset of the allowed set. -/
def subset_allowed (word : List Char) (allowed : List Char) : Bool :=
  word.all (fun c => allowed.contains c)

/-- Embeds the inner rejection loop of get_test_words in src/main.rs.  The
random generator is modelled as a stream of indices `draws` consumed one
per attempt starting at `pos` (SliceRandom::choose is the draw taken modulo
the corpus length); the loop itself is unbounded in the code, so it is
indexed here by an explicit attempt budget `fuel`, with none meaning the
budget was exhausted without the loop ever succeeding. -/
def search_word (word_list : List (List Char)) (allowed : List Char)
    (draws : Nat → Nat) : Nat → Nat → Option (List Char × Nat)
| 0, _ => none
| fuel + 1, pos =>
  match word_list[draws pos % word_list.length]? with
  | none => none
  | some w =>
      if subset_allowed w allowed then some (w, pos + 1)
      else search_word word_list allowed draws fuel (pos + 1)

/-- Embeds get_test_words of src/main.rs: for each of `amount` slots, run
the rejection loop and collect the accepted word, threading the position in
the draw stream. -/
def get_test_words (word_list : List (List Char)) (allowed : List Char)
    (draws : Nat → Nat) : Nat → Nat → Nat → Option (List (List Char))
| 0, _, _ => some []
| amount + 1, fuel, pos =>
  match search_word word_list allowed draws fuel pos with
  | none => none
  | some (w, next) =>
      match get_test_words word_list allowed draws amount fuel next with
      | none => none
      | some ws => some (w :: ws)

theorem search_word_subset (word_list : List (List Char)) (allowed : List Char)
    (draws : Nat → Nat) (fuel pos : Nat) (w : List Char) (next : Nat)
    (h : search_word word_list allowed draws fuel pos = some (w, next)) :
    subset_allowed w allowed = true := by
  induction fuel generalizing pos with
  | zero => simp [search_word] at h
  | succ fuel ih =>
      rw [search_word] at h
      split at h
      · exact absurd h (by simp)
      · split at h
        · rename_i v hg hs
          obtain ⟨rfl, rfl⟩ : v = w ∧ pos + 1 = next := by simpa using h
          exact hs
        · exact ih (pos + 1) h

theorem get_test_words_subset (word_list : List (List Char)) (allowed : List Char)
    (draws : Nat → Nat) (amount fuel pos : Nat) (ws : List (List Char))
    (h : get_test_words word_list allowed draws amount fuel pos = some ws) :
    ∀ w ∈ ws, subset_allowed w allowed = true := by
  induction amount generalizing pos ws with
  | zero =>
      rw [get_test_words] at h
      obtain rfl : [] = ws := by simpa using h
      intro w hw
      simp at hw
  | succ amount ih =>
      rw [get_test_words] at h
      split at h
      · exact absurd h (by simp)
      · rename_i p v next hs
        split at h
        · exact absurd h (by simp)
        · rename_i rest hr
          obtain rfl : v :: rest = ws := by simpa using h
          intro w hw
          rcases List.mem_cons.mp hw with rfl | hw2
          · exact search_word_subset word_list allowed draws fuel pos w next hs
          · exact ih next rest hr w hw2

/-- Claim C6: every word delivered by get_test_words has its character set
inside the allowed set, for every corpus, allowed set, requested amount,
attempt budget and draw stream; in particular, over the corpus
{"ooze", "fox"} with allowed {a, o, e, u}, "fox" is never in the result. -/
theorem get_test_words_only_allowed :
    (∀ (word_list : List (List Char)) (allowed : List Char) (draws : Nat → Nat)
        (amount fuel pos : Nat) (ws : List (List Char)),
        get_test_words word_list allowed draws amount fuel pos = some ws →
        ∀ w ∈ ws, subset_allowed w allowed = true)
    ∧ (∀ (draws : Nat → Nat) (amount fuel pos : Nat) (ws : List (List Char)),
        get_test_words [['o', 'o', 'z', 'e'], ['f', 'o', 'x']]
            ['a', 'o', 'e', 'u'] draws amount fuel pos = some ws →
        ['f', 'o', 'x'] ∉ ws) := by
  refine ⟨get_test_words_subset, fun draws amount fuel pos ws h hmem => ?_⟩
  have := get_test_words_subset _ _ draws amount fuel pos ws h _ hmem
  simp [subset_allowed] at this

/-- Witness for C6: a successful concrete sample (corpus {"aa"}, allowed
{a}, one slot) is entirely allowed, and the ooze/fox corpus with zero
requested words returns the empty queue, which avoids "fox". -/
theorem get_test_words_only_allowed_witness :
    (∀ w ∈ [['a', 'a']], subset_allowed w ['a'] = true)
    ∧ ['f', 'o', 'x'] ∉ ([] : List (List Char)) :=
  ⟨get_test_words_only_allowed.1 [['a', 'a']] ['a'] (fun _ => 0) 1 1 0
      [['a', 'a']] (by decide),
   get_test_words_only_allowed.2 (fun _ => 0) 0 1 0 [] rfl⟩

theorem search_word_none_of_no_eligible (word_list : List (List Char))
    (allowed : List Char) (draws : Nat → Nat)
    (h : ∀ w ∈ word_list, subset_allowed w allowed = false) :
    ∀ fuel pos, search_word word_list allowed draws fuel pos = none := by
  intro fuel
  induction fuel with
  | zero => intro pos; rfl
  | succ fuel ih =>
      intro pos
      rw [search_word]
      split
      · rfl
      · rename_i v hg
        have hv : v ∈ word_list := List.getElem?_mem hg
        rw [if_neg (by simp [h v hv])]
        exact ih (pos + 1)

/-- Counterexample for C7, at the concrete input corpus {"fox"}, allowed
{a, o, e, u}, constant draw stream: the rejection loop of get_test_words
never produces a result under any attempt budget — the code spins forever
instead of failing with an error (the Error enum of src/main.rs has only
CrosstermError, IoError and SystemTimeError, no sampling variant). -/
theorem sampler_not_bounded :
    ¬ ∃ (fuel : Nat) (r : List Char × Nat),
        search_word [['f', 'o', 'x']] ['a', 'o', 'e', 'u']
          (fun _ => 0) fuel 0 = some r := by
  rintro ⟨fuel, r, hr⟩
  rw [search_word_none_of_no_eligible _ _ _ (by decide) fuel 0] at hr
  exact Option.noConfusion hr

/-- Claim C7 as amended: the sampler's rejection loop is unbounded — when
no corpus word satisfies the allowed-alphabet constraint the loop never
succeeds for any attempt budget, so the code loops forever rather than
failing explicitly; consequently get_test_words yields nothing for any
positive amount. -/
theorem sampler_diverges_when_unsatisfiable (word_list : List (List Char))
    (allowed : List Char) (draws : Nat → Nat)
    (h : ∀ w ∈ word_list, subset_allowed w allowed = false) :
    (∀ fuel pos, search_word word_list allowed draws fuel pos = none)
    ∧ (∀ amount fuel pos, 0 < amount →
        get_test_words word_list allowed draws amount fuel pos = none) := by
  refine ⟨search_word_none_of_no_eligible word_list allowed draws h,
    fun amount fuel pos hpos => ?_⟩
  cases amount with
  | zero => exact absurd hpos (by simp)
  | succ amount =>
      rw [get_test_words,
        search_word_none_of_no_eligible word_list allowed draws h fuel pos]

/-- Witness for C7's amended theorem at the concrete fox corpus. -/
theorem sampler_diverges_when_unsatisfiable_witness :
    search_word [['f', 'o', 'x']] ['a', 'o', 'e', 'u'] (fun _ => 0) 5 0 = none
    ∧ get_test_words [['f', 'o', 'x']] ['a', 'o', 'e', 'u']
        (fun _ => 0) 1 5 0 = none :=
  ⟨(sampler_diverges_when_unsatisfiable [['f', 'o', 'x']] ['a', 'o', 'e', 'u']
      (fun _ => 0) (by decide)).1 5 0,
   (sampler_diverges_when_unsatisfiable [['f', 'o', 'x']] ['a', 'o', 'e', 'u']
      (fun _ => 0) (by decide)).2 1 5 0 (by decide)⟩

/-- Embeds crossterm's KeyCode enum, as consumed by src/main.rs. -/
inductive KeyCode where
| Backspace
| Enter
| Left
| Right
| Up
| Down
| Home
| End
| PageUp
| PageDown
| Tab
| BackTab
| Delete
| Insert
| F (n : Nat)
| Char (c : Char)
| Null
| Esc
deriving DecidableEq

/-- Whether a KeyCode carries a character payload. -/
def KeyCode.is_char : KeyCode → Bool
| .Char _ => true
| _ => false

/-- First-match association-list lookup, the shape of a Rust match over the
first components. -/
def lookup_assoc {α : Type} (c : Char) : List (Char × α) → Option α
| [] => none
| (k, v) :: rest => if c = k then some v else lookup_assoc c rest

/-- The match arms of map_qwerty_to_dvorak in src/main.rs, in source
order: each qwerty character paired with the dvorak character printed on
the same physical key. -/
def qwerty_dvorak_table : List (Char × Char) :=
  [('-', '['), ('_', '\x7b'), ('=', ']'), ('+', '\x7d'),
   ('q', '\''), ('Q', '"'),
   ('w', ','), ('W', '<'),
   ('e', '.'), ('E', '>'),
   ('r', 'p'), ('R', 'P'),
   ('t', 'y'), ('T', 'Y'),
   ('y', 'f'), ('Y', 'F'),
   ('u', 'g'), ('U', 'G'),
   ('i', 'c'), ('I', 'C'),
   ('o', 'r'), ('O', 'R'),
   ('p', 'l'), ('P', 'L'),
   ('[', '/'), ('\x7b', '?'),
   (']', '='), ('\x7d', '+'),
   ('s', 'o'), ('S', 'O'),
   ('d', 'e'), ('D', 'E'),
   ('f', 'u'), ('F', 'U'),
   ('g', 'i'), ('G', 'I'),
   ('h', 'd'), ('H', 'D'),
   ('j', 'h'), ('J', 'H'),
   ('k', 't'), ('K', 'T'),
   ('l', 'n'), ('L', 'N'),
   (';', 's'), (':', 'S'),
   ('\'', '-'), ('"', '_'),
   ('z', ';'), ('Z', ':'),
   ('x', 'q'), ('X', 'Q'),
   ('c', 'j'), ('C', 'J'),
   ('v', 'k'), ('V', 'K'),
   ('b', 'x'), ('B', 'X'),
   ('n', 'b'), ('N', 'B'),
   (',', 'w'), ('<', 'W'),
   ('.', 'v'), ('>', 'V'),
   ('/', 'z'), ('?', 'Z')]

/-- The character-level part of map_qwerty_to_dvorak: a matched character
is replaced by its dvorak counterpart, anything else falls through to the
wildcard arm and stays itself. -/
def map_qwerty_to_dvorak_char (c : Char) : Char :=
  (lookup_assoc c qwerty_dvorak_table).getD c

/-- Embeds map_qwerty_to_dvorak of src/main.rs: remap the payload of a
Char keycode, return every other keycode unchanged. -/
def map_qwerty_to_dvorak : KeyCode → KeyCode
| .Char c => .Char (map_qwerty_to_dvorak_char c)
| code => code

/-- The qwerty-dvorak table with its pairs swapped, used to invert the
remapping. -/
def dvorak_qwerty_table : List (Char × Char) :=
  qwerty_dvorak_table.map (fun p => (p.2, p.1))

/-- The inverse character remapping, dvorak back to qwerty. -/
def map_dvorak_to_qwerty_char (c : Char) : Char :=
  (lookup_assoc c dvorak_qwerty_table).getD c

/-- The shift pairing of the US physical keyboard: each unshifted printed
character paired with the character the same key prints under shift. -/
def shift_table : List (Char × Char) :=
  [('a', 'A'), ('b', 'B'), ('c', 'C'), ('d', 'D'), ('e', 'E'), ('f', 'F'),
   ('g', 'G'), ('h', 'H'), ('i', 'I'), ('j', 'J'), ('k', 'K'), ('l', 'L'),
   ('m', 'M'), ('n', 'N'), ('o', 'O'), ('p', 'P'), ('q', 'Q'), ('r', 'R'),
   ('s', 'S'), ('t', 'T'), ('u', 'U'), ('v', 'V'), ('w', 'W'), ('x', 'X'),
   ('y', 'Y'), ('z', 'Z'),
   ('1', '!'), ('2', '@'), ('3', '#'), ('4', '$'), ('5', '%'), ('6', '^'),
   ('7', '&'), ('8', '*'), ('9', '('), ('0', ')'),
   ('-', '_'), ('=', '+'), ('[', '\x7b'), (']', '\x7d'), ('\\', '|'),
   (';', ':'), ('\'', '"'), (',', '<'), ('.', '>'), ('/', '?')]

/-- Shifting a character on the US keyboard: characters that are not an
unshifted key glyph are returned unchanged. -/
def shift_char (c : Char) : Char :=
  (lookup_assoc c shift_table).getD c

theorem lookup_assoc_eq_none {α : Type} (c : Char) (ps : List (Char × α)) :
    lookup_assoc c ps = none ↔ ∀ p ∈ ps, c ≠ p.1 := by
  induction ps with
  | nil => simp [lookup_assoc]
  | cons p rest ih =>
      obtain ⟨k, v⟩ := p
      by_cases hk : c = k
      · simp [lookup_assoc, hk]
      · simp [lookup_assoc, hk, ih]

theorem lookup_assoc_mem {α : Type} (c : Char) (v : α) (ps : List (Char × α))
    (h : lookup_assoc c ps = some v) : (c, v) ∈ ps := by
  induction ps with
  | nil => simp [lookup_assoc] at h
  | cons p rest ih =>
      obtain ⟨k, w⟩ := p
      by_cases hk : c = k
      · rw [lookup_assoc, if_pos hk] at h
        obtain rfl : w = v := by simpa using h
        simp [hk]
      · rw [lookup_assoc, if_neg hk] at h
        exact List.mem_cons_of_mem _ (ih h)

theorem dvorak_left_inverse_on_table :
    ∀ p ∈ qwerty_dvorak_table,
      map_dvorak_to_qwerty_char (map_qwerty_to_dvorak_char p.1) = p.1 := by
  decide

theorem dvorak_values_sub_keys :
    ∀ p ∈ qwerty_dvorak_table, ∃ q ∈ qwerty_dvorak_table, p.2 = q.1 := by
  decide

theorem dvorak_left_inverse (c : Char) :
    map_dvorak_to_qwerty_char (map_qwerty_to_dvorak_char c) = c := by
  cases h : lookup_assoc c qwerty_dvorak_table with
  | some v =>
      have hmem : (c, v) ∈ qwerty_dvorak_table := lookup_assoc_mem c v _ h
      have := dvorak_left_inverse_on_table (c, v) hmem
      simpa using this
  | none =>
      have hc : map_qwerty_to_dvorak_char c = c := by
        simp [map_qwerty_to_dvorak_char, h]
      rw [hc]
      have hk : ∀ p ∈ qwerty_dvorak_table, c ≠ p.1 :=
        (lookup_assoc_eq_none c qwerty_dvorak_table).mp h
      have hinv : lookup_assoc c dvorak_qwerty_table = none := by
        rw [lookup_assoc_eq_none]
        intro p hp
        rw [dvorak_qwerty_table] at hp
        obtain ⟨q, hq, rfl⟩ := List.mem_map.mp hp
        intro he
        obtain ⟨r, hr, hre⟩ := dvorak_values_sub_keys q hq
        exact hk r hr (by simpa [hre] using he)
      simp [map_dvorak_to_qwerty_char, hinv]

/-- Claim C8: the qwerty-to-dvorak remapping is injective on characters
(hence a bijection of the finite character type onto its image, as the
claim glosses: distinct sources map to distinct targets), commutes with
the US shift pairing on every table key (case/shift-state preserved), maps
any character missing from the table to itself, and returns every
non-character keycode unchanged. -/
theorem map_qwerty_to_dvorak_spec :
    (∀ a b : Char,
        map_qwerty_to_dvorak_char a = map_qwerty_to_dvorak_char b → a = b)
    ∧ (∀ p ∈ qwerty_dvorak_table,
        map_qwerty_to_dvorak_char (shift_char p.1) =
          shift_char (map_qwerty_to_dvorak_char p.1))
    ∧ (∀ c : Char, lookup_assoc c qwerty_dvorak_table = none →
        map_qwerty_to_dvorak_char c = c)
    ∧ (∀ k : KeyCode, KeyCode.is_char k = false →
        map_qwerty_to_dvorak k = k) := by
  refine ⟨fun a b hab => ?_, by decide, fun c hc => ?_, fun k hk => ?_⟩
  · have ha := dvorak_left_inverse a
    rw [hab, dvorak_left_inverse b] at ha
    exact ha.symm
  · simp [map_qwerty_to_dvorak_char, hc]
  · cases k <;> simp_all [KeyCode.is_char, map_qwerty_to_dvorak]

/-- Witness for C8 at concrete inputs: injectivity instantiated at q,
shift preservation at the table entry for q, pass-through at the unmapped
character a, and identity on the Esc keycode. -/
theorem map_qwerty_to_dvorak_spec_witness :
    ('q' : Char) = 'q'
    ∧ map_qwerty_to_dvorak_char (shift_char 'q') =
        shift_char (map_qwerty_to_dvorak_char 'q')
    ∧ map_qwerty_to_dvorak_char 'a' = 'a'
    ∧ map_qwerty_to_dvorak KeyCode.Esc = KeyCode.Esc :=
  ⟨map_qwerty_to_dvorak_spec.1 'q' 'q' rfl,
   map_qwerty_to_dvorak_spec.2.1 ('q', '\'') (by decide),
   map_qwerty_to_dvorak_spec.2.2.1 'a' (by decide),
   map_qwerty_to_dvorak_spec.2.2.2 KeyCode.Esc rfl⟩

/-- Embeds enum Key of src/keyboard.rs: one variant per physical key,
independent of shift state. -/
inductive Key where
| BackTick
| One
| Two
| Three
| Four
| Five
| Six
| Seven
| Eight
| Nine
| Zero
| OpenBracket
| CloseBracket
| Quote
| Comma
| Period
| P
| Y
| F
| G
| C
| R
| L
| ForwardSlash
| Equal
| BackSlash
| A
| O
| E
| U
| I
| D
| H
| T
| N
| S
| Dash
| Semicolon
| Q
| J
| K
| X
| B
| M
| W
| V
| Z
deriving DecidableEq

/-- The outcome of running code that may hit a panic: either the returned
value, or the panic of an unreachable-code assertion. -/
inductive PanicOr (α : Type) where
| panicked
| ok (val : α)
deriving DecidableEq

/-- The match arms of key_code_to_key in src/keyboard.rs, in source order:
each arm lists the unshifted and shifted glyph of one physical key. -/
def key_char_table : List (Char × Key) :=
  [('\x60', Key.BackTick), ('~', Key.BackTick),
   ('1', Key.One), ('!', Key.One),
   ('2', Key.Two), ('@', Key.Two),
   ('3', Key.Three), ('#', Key.Three),
   ('4', Key.Four), ('$', Key.Four),
   ('5', Key.Five), ('%', Key.Five),
   ('6', Key.Six), ('^', Key.Six),
   ('7', Key.Seven), ('&', Key.Seven),
   ('8', Key.Eight), ('*', Key.Eight),
   ('9', Key.Nine), ('(', Key.Nine),
   ('0', Key.Zero), (')', Key.Zero),
   ('[', Key.OpenBracket), ('\x7b', Key.OpenBracket),
   (']', Key.CloseBracket), ('\x7d', Key.CloseBracket),
   ('\'', Key.Quote), ('"', Key.Quote),
   (',', Key.Comma), ('<', Key.Comma),
   ('.', Key.Period), ('>', Key.Period),
   ('p', Key.P), ('P', Key.P),
   ('y', Key.Y), ('Y', Key.Y),
   ('f', Key.F), ('F', Key.F),
   ('g', Key.G), ('G', Key.G),
   ('c', Key.C), ('C', Key.C),
   ('r', Key.R), ('R', Key.R),
   ('l', Key.L), ('L', Key.L),
   ('/', Key.ForwardSlash), ('?', Key.ForwardSlash),
   ('=', Key.Equal), ('+', Key.Equal),
   ('\\', Key.BackSlash), ('|', Key.BackSlash),
   ('a', Key.A), ('A', Key.A),
   ('o', Key.O), ('O', Key.O),
   ('e', Key.E), ('E', Key.E),
   ('u', Key.U), ('U', Key.U),
   ('i', Key.I), ('I', Key.I),
   ('d', Key.D), ('D', Key.D),
   ('h', Key.H), ('H', Key.H),
   ('t', Key.T), ('T', Key.T),
   ('n', Key.N), ('N', Key.N),
   ('s', Key.S), ('S', Key.S),
   ('-', Key.Dash), ('_', Key.Dash),
   (';', Key.Semicolon), (':', Key.Semicolon),
   ('q', Key.Q), ('Q', Key.Q),
   ('j', Key.J), ('J', Key.J),
   ('k', Key.K), ('K', Key.K),
   ('x', Key.X), ('X', Key.X),
   ('b', Key.B), ('B', Key.B),
   ('m', Key.M), ('M', Key.M),
   ('w', Key.W), ('W', Key.W),
   ('v', Key.V), ('V', Key.V),
   ('z', Key.Z), ('Z', Key.Z)]

/-- Embeds key_code_to_key of src/keyboard.rs: a Char keycode is looked up
in the per-character match arms, whose wildcard arm is the unreachable
panic; every non-character keycode returns None. -/
def key_code_to_key (code : KeyCode) : PanicOr (Option Key) :=
  match code with
  | .Char c =>
      match lookup_assoc c key_char_table with
      | some k => .ok (some k)
      | none => .panicked
  | _ => .ok none

/-- Counterexample for C10 at the concrete input Char with the space
character: key_code_to_key hits the wildcard arm, which is
an unreachable-code panic, so the function is not total on character
keycodes. -/
theorem key_code_to_key_panics_on_space :
    key_code_to_key (KeyCode.Char ' ') = PanicOr.panicked := by
  decide

/-- Claim C10 as amended: key_code_to_key returns Some key for every
character that appears in the layout match arms and None for every
non-character keycode, but a character keycode outside the arms — such as
the space character — executes the wildcard unreachable panic instead of
returning. -/
theorem key_code_to_key_spec :
    (∀ (c : Char) (k : Key), lookup_assoc c key_char_table = some k →
        key_code_to_key (KeyCode.Char c) = PanicOr.ok (some k))
    ∧ (∀ code : KeyCode, KeyCode.is_char code = false →
        key_code_to_key code = PanicOr.ok none)
    ∧ key_code_to_key (KeyCode.Char ' ') = PanicOr.panicked := by
  refine ⟨fun c k hk => ?_, fun code hcode => ?_, by decide⟩
  · simp [key_code_to_key, hk]
  · cases code <;> simp_all [KeyCode.is_char, key_code_to_key]

/-- Witness for C10's amended theorem: the backtick key resolves, and the
Esc keycode carries no character. -/
theorem key_code_to_key_spec_witness :
    key_code_to_key (KeyCode.Char '\x60') = PanicOr.ok (some Key.BackTick)
    ∧ key_code_to_key KeyCode.Esc = PanicOr.ok none :=
  ⟨key_code_to_key_spec.1 '\x60' Key.BackTick (by decide),
   key_code_to_key_spec.2.1 KeyCode.Esc rfl⟩

end Dvors
